import Mathlib

/-!
# Defiant — Tuple and Record utilities: a shallow embedding

This file embeds the Defiant module (`src/defiant.ts`) in Lean 4 and proves
properties of its operations.  The module provides frozen arrays (tuples),
frozen objects (records), and a shared deep structural equality
(`Tuple.isEqual` / `Record.isEqual`, implemented by the inner `_isEqual`).

The JavaScript value domain is modelled by `Defiant.JSValue`:
* primitives (`undefined`, `null`, booleans, numbers, strings); numbers
  distinguish NaN and negative zero from the other numbers, which is all
  the equality algorithm observes about them;
* arrays, carrying their frozen marker and their element list;
* non-array objects, carrying their frozen marker, the identity of their
  prototype (an abstract tag: `Object.getPrototypeOf` is only ever compared
  with `!==`), and their own enumerable string-keyed properties in
  insertion order.  Arrays carry the standard `Array.prototype` tag
  (`arrayProtoId`).

Reference identity (`===`) on structured values cannot be expressed in a
heapless term model; `strictEqual` therefore answers `false` for every
pair of structured values, i.e. the model treats any two structured
arguments as distinct references.  This is result-faithful: for a pair
that is in fact one and the same reference the source returns `true`
immediately, and `isEqual_refl` below shows the model also returns `true`
for such a pair (by running the recursion).  For the copy-on-create claim,
which is genuinely about aliasing, a small explicit heap model is used
instead (see `Heap` below).

`_isEqual`'s recursion is embedded with an explicit fuel argument
(`isEqualFuel`), structurally recursive in the fuel so that every
definition evaluates by `decide`; `isEqual` runs it with fuel `jsSize x`,
and `isEqualFuel_spec` proves the fuel is irrelevant from that point on —
this is exactly the statement that the recursion of the source is
well-founded on the structure of its (acyclic) arguments.
-/

namespace Defiant

/-- The number kinds `_isEqual` distinguishes: NaN, negative zero, and the
remaining numbers (represented by integers; the algorithm only ever
compares numbers for equality). -/
inductive JSNum where
  | nan : JSNum
  | negZero : JSNum
  | int : Int → JSNum
deriving DecidableEq

/-- JavaScript primitive values. -/
inductive Prim where
  | undefined : Prim
  | null : Prim
  | bool : Bool → Prim
  | num : JSNum → Prim
  | str : String → Prim
deriving DecidableEq

/-- JavaScript values, as observed by the Defiant module: primitives,
arrays (frozen marker, elements) and non-array objects (frozen marker,
prototype tag, own enumerable properties in insertion order). -/
inductive JSValue where
  | prim : Prim → JSValue
  | arr : Bool → List JSValue → JSValue
  | obj : Bool → Nat → List (String × JSValue) → JSValue

/-- The prototype tag of `Object.prototype`: plain object literals and the
objects built by `Record` carry it. -/
def objectProtoId : Nat := 0

/-- The prototype tag of `Array.prototype`: every array carries it.  A
non-array object may also carry it (`Object.create(Array.prototype)`). -/
def arrayProtoId : Nat := 1

/-- `===` on numbers: NaN is not equal to itself, `+0 === -0` is true. -/
def numStrictEq : JSNum → JSNum → Bool
  | .nan, _ => false
  | _, .nan => false
  | .negZero, .negZero => true
  | .negZero, .int n => n == 0
  | .int n, .negZero => n == 0
  | .int m, .int n => m == n

/-- `===` on primitives. -/
def primStrictEq : Prim → Prim → Bool
  | .num a, .num b => numStrictEq a b
  | a, b => a == b

/-- The source's `x === y`.  On primitives this is strict primitive
equality; on structured values it is reference identity, which the
heapless model renders as `false` (two structured arguments are treated
as distinct references; see the module comment and `isEqual_refl`). -/
def strictEqual : JSValue → JSValue → Bool
  | .prim a, .prim b => primStrictEq a b
  | _, _ => false

/-- `Number.isNaN`. -/
def isNaNv : JSValue → Bool
  | .prim (.num .nan) => true
  | _ => false

/-- `Array.isArray`. -/
def isArrayV : JSValue → Bool
  | .arr _ _ => true
  | _ => false

/-- The source's `_isObject`: `value != null && typeof value === "object"`.
True exactly on arrays and objects. -/
def isObjectV : JSValue → Bool
  | .prim _ => false
  | _ => true

/-- `Object.isFrozen` (on structured values; `Object.isFrozen` of a
primitive is `true` in ES2015+). -/
def isFrozen : JSValue → Bool
  | .prim _ => true
  | .arr f _ => f
  | .obj f _ _ => f

/-- `Object.getPrototypeOf`, as an abstract tag (`none` for primitives,
which the algorithm never asks about). -/
def protoOf : JSValue → Option Nat
  | .prim _ => none
  | .arr _ _ => some arrayProtoId
  | .obj _ p _ => some p

/-- The own enumerable string-keyed properties of a value, in order: an
array's are its indices `"0"`, `"1"`, … mapped to its elements (`length`
is not enumerable), an object's are its fields, a primitive has none. -/
def ownEntries : JSValue → List (String × JSValue)
  | .prim _ => []
  | .arr _ es => es.enum.map (fun p => (toString p.1, p.2))
  | .obj _ _ fs => fs

/-- `Object.keys`. -/
def keysOf (v : JSValue) : List String := (ownEntries v).map Prod.fst

/-- Property access `v[k]`: the value of the own property named `k`, or
`undefined` when there is none. -/
def getProp (v : JSValue) (k : String) : JSValue :=
  match (ownEntries v).find? (fun q => q.1 == k) with
  | some q => q.2
  | none => .prim .undefined

/-- The element list of an array (and `[]` on anything else; the array
branch of `_isEqual` only reads it behind `Array.isArray`). -/
def elemsOf : JSValue → List JSValue
  | .arr _ es => es
  | _ => []

/-- One unfolding of the source's `_isEqual`, with `rec` standing for the
recursive calls.  This is a line-by-line transcription of
`src/defiant.ts` lines 97–127; the index loop over `0 ≤ i < x.length`
comparing `x[i]` with `y[i]` is the `List.all` over the zip of the two
(equal-length) element lists. -/
def isEqualStep (rec : JSValue → JSValue → Bool) (x y : JSValue) : Bool :=
  -- `if (x === y || (Number.isNaN(x) && Number.isNaN(y))) { return true; }`
  if strictEqual x y || (isNaNv x && isNaNv y) then true
  -- `if (Array.isArray(x) && Array.isArray(y))`
  else if isArrayV x && isArrayV y then
    if (elemsOf x).length != (elemsOf y).length then false
    else if (elemsOf x).length == 0 then true
    else ((elemsOf x).zip (elemsOf y)).all (fun p => rec p.1 p.2)
  -- `if (_isObject(x) && _isObject(y))`
  else if isObjectV x && isObjectV y then
    if protoOf x != protoOf y then false
    else
      if (keysOf x).length != (keysOf y).length then false
      else if (keysOf x).length == 0 then true
      else (keysOf x).all (fun k =>
        (keysOf y).contains k && rec (getProp x k) (getProp y k))
  else false

/-- `_isEqual` with explicit fuel, structurally recursive in the fuel. -/
def isEqualFuel : Nat → JSValue → JSValue → Bool
  | 0, _, _ => false
  | n + 1, x, y => isEqualStep (isEqualFuel n) x y

mutual

/-- The structural size of a value (drives the fuel of `isEqual`). -/
def jsSize : JSValue → Nat
  | .prim _ => 1
  | .arr _ es => 1 + jsSizeList es
  | .obj _ _ fs => 1 + jsSizeFields fs

/-- The summed size of an element list. -/
def jsSizeList : List JSValue → Nat
  | [] => 0
  | v :: vs => 1 + jsSize v + jsSizeList vs

/-- The summed size of a field list. -/
def jsSizeFields : List (String × JSValue) → Nat
  | [] => 0
  | p :: fs => 1 + jsSize p.2 + jsSizeFields fs

end

/-- The source's `_isEqual` (hence `Tuple.isEqual` and `Record.isEqual`):
run the recursion with enough fuel for the first argument.
`isEqualFuel_spec` shows any fuel of at least `jsSize x` gives the same
answer, so the fuel is a proof device, not part of the semantics. -/
def isEqual (x y : JSValue) : Bool := isEqualFuel (jsSize x) x y

/-! ## The Defiant surface operations -/

/-- `Tuple(...values)` (also `Tuple.of`): freeze the argument array. -/
def Tuple (values : List JSValue) : JSValue := .arr true values

/-- `Tuple.of(...values)`: alias of `Tuple`. -/
def Tuple.of (values : List JSValue) : JSValue := Tuple values

/-- `Tuple.isTuple(value)`: a frozen array. -/
def Tuple.isTuple (value : JSValue) : Bool := isArrayV value && isFrozen value

/-- `Tuple.toArray(value)`: `Array.from(value)`, a new non-frozen array
with the same elements (shallow: the elements themselves are shared). -/
def Tuple.toArray : JSValue → JSValue
  | .arr _ es => .arr false es
  | _ => .arr false []

/-- `Record(O)`: `Object.freeze(Object.assign({}, O))` — a frozen plain
object carrying a copy of `O`'s own enumerable properties. -/
def Record (O : JSValue) : JSValue := .obj true objectProtoId (ownEntries O)

/-- `Record.fromObject(O)`: alias of `Record`. -/
def Record.fromObject (O : JSValue) : JSValue := Record O

/-- `Record.isRecord(value)`:
`value != null && typeof value === "object" && Object.isFrozen(value)`. -/
def Record.isRecord (value : JSValue) : Bool := isObjectV value && isFrozen value

/-- One step of `Object.fromEntries`: assigning `k ↦ v` to an object whose
fields are `fs` replaces the value in place when `k` is already a key and
appends the new field otherwise. -/
def insertField (fs : List (String × JSValue)) (k : String) (v : JSValue) :
    List (String × JSValue) :=
  if fs.any (fun p => p.1 == k) then
    fs.map (fun p => if p.1 == k then (k, v) else p)
  else fs ++ [(k, v)]

/-- The field list `Object.fromEntries(entries)` builds: each pair is
assigned in order, so a repeated key keeps its first position and its last
value. -/
def fieldsFromEntries (entries : List (String × JSValue)) :
    List (String × JSValue) :=
  entries.foldl (fun fs e => insertField fs e.1 e.2) []

/-- `Record.fromEntries(entries)`:
`Object.freeze(Object.fromEntries(entries))`. -/
def Record.fromEntries (entries : List (String × JSValue)) : JSValue :=
  .obj true objectProtoId (fieldsFromEntries entries)

/-- Looking a key up in a field list: the value of the first field with
that key, if any. -/
def lookupField (fs : List (String × JSValue)) (k : String) : Option JSValue :=
  (fs.find? (fun p => p.1 == k)).map Prod.snd

/-! ## Basic size lemmas, and the fuel is irrelevant beyond `jsSize x` -/

theorem one_le_jsSize (v : JSValue) : 1 ≤ jsSize v := by
  cases v <;> simp [jsSize]

theorem jsSize_lt_of_mem_list {a : JSValue} {l : List JSValue} (h : a ∈ l) :
    jsSize a < 1 + jsSizeList l := by
  induction l with
  | nil => simp at h
  | cons b l ih =>
    rcases List.mem_cons.mp h with rfl | h2
    · simp [jsSizeList]; omega
    · have := ih h2
      simp only [jsSizeList]
      omega

theorem jsSize_snd_lt_of_mem_fields {p : String × JSValue}
    {fs : List (String × JSValue)} (h : p ∈ fs) :
    jsSize p.2 < 1 + jsSizeFields fs := by
  induction fs with
  | nil => simp at h
  | cons q fs ih =>
    rcases List.mem_cons.mp h with rfl | h2
    · simp [jsSizeFields]; omega
    · have := ih h2
      simp only [jsSizeFields]
      omega

theorem jsSize_mem_elems {a : JSValue} {f : Bool} {es : List JSValue}
    (h : a ∈ es) : jsSize a < jsSize (JSValue.arr f es) := by
  have h1 := jsSize_lt_of_mem_list h
  simp only [jsSize]
  omega

theorem jsSize_mem_elemsOf {a : JSValue} {x : JSValue}
    (h : a ∈ elemsOf x) : jsSize a < jsSize x := by
  cases x with
  | prim p => simp [elemsOf] at h
  | arr f es => exact jsSize_mem_elems h
  | obj f p fs => simp [elemsOf] at h

theorem snd_mem_of_mem_ownEntries {q : String × JSValue} {x : JSValue}
    (h : q ∈ ownEntries x) : jsSize q.2 < jsSize x := by
  cases x with
  | prim p => simp [ownEntries] at h
  | arr f es =>
    simp only [ownEntries, List.mem_map] at h
    obtain ⟨r, hr, rfl⟩ := h
    have hmem : r ∈ List.enumFrom 0 es := by simpa [List.enum] using hr
    have h2 : r.2 ∈ es := by
      obtain ⟨i, a⟩ := r
      obtain ⟨-, -, heq⟩ := List.mem_enumFrom hmem
      exact heq ▸ List.getElem_mem _
    exact jsSize_mem_elems h2
  | obj f p fs =>
    simp only [ownEntries] at h
    have h1 := jsSize_snd_lt_of_mem_fields h
    simp only [jsSize]
    omega

theorem jsSize_getProp_lt {x : JSValue} {k : String} (h : k ∈ keysOf x) :
    jsSize (getProp x k) < jsSize x := by
  simp only [keysOf, List.mem_map] at h
  obtain ⟨q, hq, rfl⟩ := h
  have hsome : ∃ r, (ownEntries x).find? (fun r => r.1 == q.1) = some r := by
    have : ((ownEntries x).find? (fun r => r.1 == q.1)).isSome := by
      rw [List.find?_isSome]
      exact ⟨q, hq, by simp⟩
    exact Option.isSome_iff_exists.mp this
  obtain ⟨r, hr⟩ := hsome
  have hrm : r ∈ ownEntries x := List.mem_of_find?_eq_some hr
  simp only [getProp, hr]
  exact snd_mem_of_mem_ownEntries hrm

/-- A helper: `List.all` only looks at members. -/
theorem all_congr_mem {α : Type} {l : List α} {f g : α → Bool}
    (h : ∀ a ∈ l, f a = g a) : l.all f = l.all g := by
  induction l with
  | nil => rfl
  | cons a l ih =>
    simp only [List.all_cons]
    rw [h a (by simp), ih (fun b hb => h b (by simp [hb]))]

/-- `isEqualStep` only calls `rec` on first arguments structurally below
`x`. -/
theorem isEqualStep_congr {r₁ r₂ : JSValue → JSValue → Bool} (x y : JSValue)
    (h : ∀ a b, jsSize a < jsSize x → r₁ a b = r₂ a b) :
    isEqualStep r₁ x y = isEqualStep r₂ x y := by
  unfold isEqualStep
  by_cases h0 : (strictEqual x y || (isNaNv x && isNaNv y)) = true
  · simp [h0]
  · simp only [Bool.not_eq_true] at h0
    simp only [h0, Bool.false_eq_true, if_false]
    by_cases harr : (isArrayV x && isArrayV y) = true
    · simp only [harr, if_true]
      by_cases hlen : ((elemsOf x).length != (elemsOf y).length) = true
      · simp [hlen]
      · simp only [Bool.not_eq_true] at hlen
        simp only [hlen, Bool.false_eq_true, if_false]
        by_cases hz : ((elemsOf x).length == 0) = true
        · simp [hz]
        · simp only [Bool.not_eq_true] at hz
          simp only [hz, Bool.false_eq_true, if_false]
          apply all_congr_mem
          intro p hp
          have hmem : p.1 ∈ elemsOf x := (List.of_mem_zip hp).1
          exact h p.1 p.2 (jsSize_mem_elemsOf hmem)
    · simp only [Bool.not_eq_true] at harr
      simp only [harr, Bool.false_eq_true, if_false]
      by_cases ho : (isObjectV x && isObjectV y) = true
      · simp only [ho, if_true]
        by_cases hp : (protoOf x != protoOf y) = true
        · simp [hp]
        · simp only [Bool.not_eq_true] at hp
          simp only [hp, Bool.false_eq_true, if_false]
          by_cases hlen : ((keysOf x).length != (keysOf y).length) = true
          · simp [hlen]
          · simp only [Bool.not_eq_true] at hlen
            simp only [hlen, Bool.false_eq_true, if_false]
            by_cases hz : ((keysOf x).length == 0) = true
            · simp [hz]
            · simp only [Bool.not_eq_true] at hz
              simp only [hz, Bool.false_eq_true, if_false]
              apply all_congr_mem
              intro k hk
              by_cases hc : k ∈ keysOf y
              · have hc2 : (keysOf y).contains k = true := by simpa using hc
                simp only [hc2, Bool.true_and]
                exact h _ _ (jsSize_getProp_lt hk)
              · have hc2 : (keysOf y).contains k = false := by simpa using hc
                simp only [hc2, Bool.false_and]
      · simp only [Bool.not_eq_true] at ho
        simp [ho]

/-- Fuel irrelevance: any two fuels at least `sizeOf x` agree.  This is
the well-foundedness of `_isEqual`'s recursion on the structure of its
first argument. -/
theorem isEqualFuel_stable : ∀ k : Nat, ∀ x y : JSValue, ∀ m n : Nat,
    jsSize x = k → jsSize x ≤ m → jsSize x ≤ n →
    isEqualFuel m x y = isEqualFuel n x y := by
  intro k
  induction k using Nat.strong_induction_on with
  | _ k ih =>
    intro x y m n hk hm hn
    have h1 : 1 ≤ jsSize x := one_le_jsSize x
    obtain ⟨m', rfl⟩ : ∃ m', m = m' + 1 := ⟨m - 1, by omega⟩
    obtain ⟨n', rfl⟩ : ∃ n', n = n' + 1 := ⟨n - 1, by omega⟩
    show isEqualStep (isEqualFuel m') x y = isEqualStep (isEqualFuel n') x y
    apply isEqualStep_congr
    intro a b ha
    exact ih (jsSize a) (by omega) a b m' n' rfl (by omega) (by omega)

/-- `isEqual` computes `_isEqual`: with any fuel at least `sizeOf x` the
fueled recursion returns `isEqual x y`. -/
theorem isEqualFuel_spec (x y : JSValue) (n : Nat) (hn : jsSize x ≤ n) :
    isEqualFuel n x y = isEqual x y :=
  isEqualFuel_stable (jsSize x) x y n (jsSize x) rfl hn le_rfl

/-- The fixpoint equation of `_isEqual`: unfolding one step of the
recursion. -/
theorem isEqual_unfold (x y : JSValue) :
    isEqual x y = isEqualStep isEqual x y := by
  have h1 : 1 ≤ jsSize x := one_le_jsSize x
  obtain ⟨k, hk⟩ : ∃ k, jsSize x = k + 1 := ⟨jsSize x - 1, by omega⟩
  show isEqualFuel (jsSize x) x y = _
  rw [hk]
  show isEqualStep (isEqualFuel k) x y = isEqualStep isEqual x y
  apply isEqualStep_congr
  intro a b ha
  exact isEqualFuel_spec a b k (by omega)


/-! ## Branch lemmas for `isEqual` -/

theorem strictEqual_arr_left (f : Bool) (xs : List JSValue) (y : JSValue) :
    strictEqual (.arr f xs) y = false := by
  cases y <;> rfl

theorem strictEqual_obj_left (b : Bool) (p : Nat)
    (fs : List (String × JSValue)) (y : JSValue) :
    strictEqual (.obj b p fs) y = false := by
  cases y <;> rfl

/-- The array branch: on two arrays, `_isEqual` is the length test plus
the element-wise conjunction. -/
theorem isEqual_arr (f g : Bool) (xs ys : List JSValue) :
    isEqual (.arr f xs) (.arr g ys)
      = ((xs.length == ys.length)
          && (xs.zip ys).all (fun p => isEqual p.1 p.2)) := by
  rw [isEqual_unfold]
  unfold isEqualStep
  rw [strictEqual_arr_left]
  simp only [isNaNv, isArrayV, Bool.false_and, Bool.or_false,
    Bool.false_eq_true, if_false, Bool.and_self, Bool.true_and, if_true,
    elemsOf]
  by_cases hlen : xs.length = ys.length
  · have h1 : (xs.length != ys.length) = false := by simp [hlen]
    have h2 : (xs.length == ys.length) = true := by simp [hlen]
    rw [h1, h2, Bool.true_and]
    simp only [Bool.false_eq_true, if_false]
    by_cases hz : xs.length = 0
    · have hx : xs = [] := List.eq_nil_of_length_eq_zero hz
      have hy : ys = [] := List.eq_nil_of_length_eq_zero (by omega)
      subst hx; subst hy
      simp
    · have h3 : (xs.length == 0) = false := by simp [hz]
      rw [h3]
      simp only [Bool.false_eq_true, if_false]
  · have h1 : (xs.length != ys.length) = true := by simp [hlen]
    have h2 : (xs.length == ys.length) = false := by simp [hlen]
    rw [h1, h2, Bool.false_and]
    simp only [if_true]

/-- A lawful `==` is symmetric. -/
theorem beqComm {α : Type} [BEq α] [LawfulBEq α] (a b : α) :
    (a == b) = (b == a) := by
  apply Bool.coe_iff_coe.mp
  simp only [beq_iff_eq]
  exact eq_comm

theorem numStrictEq_symm (a b : JSNum) : numStrictEq a b = numStrictEq b a := by
  cases a <;> cases b <;> first
    | rfl
    | exact beqComm _ _

theorem primStrictEq_symm (a b : Prim) : primStrictEq a b = primStrictEq b a := by
  cases a <;> cases b <;> first
    | rfl
    | exact numStrictEq_symm _ _
    | exact beqComm _ _

theorem strictEqual_symm (x y : JSValue) : strictEqual x y = strictEqual y x := by
  cases x <;> cases y <;> first
    | rfl
    | exact primStrictEq_symm _ _

/-- On a primitive left argument, `_isEqual` is decided by the
SameValueZero test alone (a primitive is neither an array nor an
object). -/
theorem isEqual_prim_left (a : Prim) (y : JSValue) :
    isEqual (.prim a) y = (strictEqual (.prim a) y
      || (isNaNv (.prim a) && isNaNv y)) := by
  rw [isEqual_unfold]
  unfold isEqualStep
  by_cases h : (strictEqual (.prim a) y || (isNaNv (.prim a) && isNaNv y)) = true
  · simp [h]
  · simp only [Bool.not_eq_true] at h
    simp only [h, Bool.false_eq_true, if_false, isArrayV, isObjectV,
      Bool.false_and, Bool.and_false, if_false]

/-- On a primitive right argument, `_isEqual` is likewise decided by the
SameValueZero test alone. -/
theorem isEqual_prim_right (x : JSValue) (b : Prim) :
    isEqual x (.prim b) = (strictEqual x (.prim b)
      || (isNaNv x && isNaNv (.prim b))) := by
  rw [isEqual_unfold]
  unfold isEqualStep
  by_cases h : (strictEqual x (.prim b) || (isNaNv x && isNaNv (.prim b))) = true
  · simp [h]
  · simp only [Bool.not_eq_true] at h
    simp only [h, Bool.false_eq_true, if_false, isArrayV, isObjectV,
      Bool.and_false, if_false]

theorem strictEqual_false_of_isObject {x : JSValue} (hx : isObjectV x = true)
    (y : JSValue) : strictEqual x y = false := by
  cases x with
  | prim a => simp [isObjectV] at hx
  | arr f es => exact strictEqual_arr_left f es y
  | obj b p fs => exact strictEqual_obj_left b p fs y

theorem isNaNv_false_of_isObject {x : JSValue} (hx : isObjectV x = true) :
    isNaNv x = false := by
  cases x with
  | prim a => simp [isObjectV] at hx
  | arr f es => rfl
  | obj b p fs => rfl

/-- The object branch: on two object-shaped values that are not both
arrays, `_isEqual` is the prototype test, the key-count test, and the
keyed conjunction. -/
theorem isEqual_objBranch (x y : JSValue) (hx : isObjectV x = true)
    (hy : isObjectV y = true) (hno : (isArrayV x && isArrayV y) = false) :
    isEqual x y = ((protoOf x == protoOf y)
      && ((keysOf x).length == (keysOf y).length)
      && (keysOf x).all (fun k =>
            (keysOf y).contains k && isEqual (getProp x k) (getProp y k))) := by
  rw [isEqual_unfold]
  unfold isEqualStep
  rw [strictEqual_false_of_isObject hx, isNaNv_false_of_isObject hx]
  simp only [Bool.false_and, Bool.or_false, Bool.false_eq_true, if_false,
    hno, hx, hy, Bool.and_self, if_true]
  by_cases hp : protoOf x = protoOf y
  · have h1 : (protoOf x != protoOf y) = false := by simp [hp]
    have h2 : (protoOf x == protoOf y) = true := by simp [hp]
    rw [h1, h2, Bool.true_and]
    simp only [Bool.false_eq_true, if_false]
    by_cases hlen : (keysOf x).length = (keysOf y).length
    · have h3 : ((keysOf x).length != (keysOf y).length) = false := by simp [hlen]
      have h4 : ((keysOf x).length == (keysOf y).length) = true := by simp [hlen]
      rw [h3, h4, Bool.true_and]
      simp only [Bool.false_eq_true, if_false]
      by_cases hz : (keysOf x).length = 0
      · have h5 : ((keysOf x).length == 0) = true := by simp [hz]
        rw [h5]
        have hx0 : keysOf x = [] := List.eq_nil_of_length_eq_zero hz
        rw [hx0]
        simp
      · have h5 : ((keysOf x).length == 0) = false := by simp [hz]
        rw [h5]
        simp only [Bool.false_eq_true, if_false]
    · have h3 : ((keysOf x).length != (keysOf y).length) = true := by simp [hlen]
      have h4 : ((keysOf x).length == (keysOf y).length) = false := by simp [hlen]
      rw [h3, h4, Bool.false_and]
      simp only [if_true]
  · have h1 : (protoOf x != protoOf y) = true := by simp [hp]
    have h2 : (protoOf x == protoOf y) = false := by simp [hp]
    rw [h1, h2, Bool.false_and, Bool.false_and]
    simp only [if_true]

/-! ## Association-list lemmas -/

/-- In a field list with duplicate-free keys, looking a member's key up
finds that member. -/
theorem find?_eq_of_mem_of_nodup {fs : List (String × JSValue)}
    (hnd : (fs.map Prod.fst).Nodup) {p : String × JSValue} (hp : p ∈ fs) :
    fs.find? (fun q => q.1 == p.1) = some p := by
  induction fs with
  | nil => simp at hp
  | cons q fs ih =>
    simp only [List.map_cons, List.nodup_cons] at hnd
    rcases List.mem_cons.mp hp with rfl | hmem
    · simp [List.find?_cons_of_pos]
    · have hqp : q.1 ≠ p.1 := by
        intro e
        exact hnd.1 (e ▸ List.mem_map_of_mem Prod.fst hmem)
      rw [List.find?_cons_of_neg _ (by simp [hqp])]
      exact ih hnd.2 hmem

theorem find?_key_isSome_iff (fs : List (String × JSValue)) (k : String) :
    (∃ r, fs.find? (fun q => q.1 == k) = some r) ↔ k ∈ fs.map Prod.fst := by
  constructor
  · rintro ⟨r, hr⟩
    have hm : r ∈ fs := List.mem_of_find?_eq_some hr
    have hk := List.find?_some hr
    have hrk : r.1 = k := by simpa using hk
    exact hrk ▸ List.mem_map_of_mem Prod.fst hm
  · intro hk
    obtain ⟨q, hq, rfl⟩ := List.mem_map.mp hk
    have : (fs.find? (fun r => r.1 == q.1)).isSome := by
      rw [List.find?_isSome]
      exact ⟨q, hq, by simp⟩
    exact Option.isSome_iff_exists.mp this

/-- `getProp` on an object with duplicate-free keys reads the member. -/
theorem getProp_obj_of_mem {b : Bool} {pr : Nat} {fs : List (String × JSValue)}
    (hnd : (fs.map Prod.fst).Nodup) {p : String × JSValue} (hp : p ∈ fs) :
    getProp (.obj b pr fs) p.1 = p.2 := by
  simp only [getProp, ownEntries, find?_eq_of_mem_of_nodup hnd hp]

/-! ## Decimal numerals are injective (array index keys are distinct) -/

theorem toDigitsCore_fuel_irrel :
    ∀ n f₁ f₂ : Nat, ∀ acc : List Char, n < f₁ → n < f₂ →
      Nat.toDigitsCore 10 f₁ n acc = Nat.toDigitsCore 10 f₂ n acc := by
  intro n
  induction n using Nat.strong_induction_on with
  | _ n ih =>
    intro f₁ f₂ acc h₁ h₂
    obtain ⟨g₁, rfl⟩ : ∃ g, f₁ = g + 1 := ⟨f₁ - 1, by omega⟩
    obtain ⟨g₂, rfl⟩ : ∃ g, f₂ = g + 1 := ⟨f₂ - 1, by omega⟩
    show Nat.toDigitsCore 10 (g₁ + 1) n acc = Nat.toDigitsCore 10 (g₂ + 1) n acc
    simp only [Nat.toDigitsCore]
    by_cases hz : n / 10 = 0
    · simp [hz]
    · simp only [hz, if_false]
      have hn1 : 1 ≤ n := by
        by_contra hc
        have : n = 0 := by omega
        subst this
        simp at hz
      have hlt : n / 10 < n := Nat.div_lt_self (by omega) (by omega)
      exact ih (n / 10) hlt g₁ g₂ _ (by omega) (by omega)

theorem toDigitsCore_acc :
    ∀ f n : Nat, ∀ acc : List Char,
      Nat.toDigitsCore 10 f n acc = Nat.toDigitsCore 10 f n [] ++ acc := by
  intro f
  induction f with
  | zero => intro n acc; rfl
  | succ f ih =>
    intro n acc
    simp only [Nat.toDigitsCore]
    by_cases hz : n / 10 = 0
    · simp [hz]
    · simp only [hz, if_false]
      rw [ih (n / 10) (Nat.digitChar (n % 10) :: acc),
        ih (n / 10) [Nat.digitChar (n % 10)]]
      simp

theorem toDigits_small {n : Nat} (h : n < 10) :
    Nat.toDigits 10 n = [Nat.digitChar n] := by
  simp [Nat.toDigits, Nat.toDigitsCore, Nat.div_eq_of_lt h, Nat.mod_eq_of_lt h]

theorem toDigits_step {n : Nat} (h : 10 ≤ n) :
    Nat.toDigits 10 n
      = Nat.toDigits 10 (n / 10) ++ [Nat.digitChar (n % 10)] := by
  show Nat.toDigitsCore 10 (n + 1) n [] = _
  simp only [Nat.toDigitsCore]
  have hz : ¬ n / 10 = 0 := by
    have := Nat.div_le_div_right (c := 10) h
    simp at this
    omega
  simp only [hz, if_false]
  rw [toDigitsCore_acc]
  have hlt : n / 10 < n := Nat.div_lt_self (by omega) (by omega)
  rw [toDigitsCore_fuel_irrel (n / 10) n (n / 10 + 1) [] hlt (by omega)]
  rfl

/-- Reading a digit string back as a number. -/
def digitsVal (l : List Char) : Nat :=
  l.foldl (fun a c => 10 * a + (c.toNat - 48)) 0

theorem digitsVal_append_one (l : List Char) (c : Char) :
    digitsVal (l ++ [c]) = 10 * digitsVal l + (c.toNat - 48) := by
  simp [digitsVal, List.foldl_append]

theorem digitChar_val {m : Nat} (h : m < 10) :
    (Nat.digitChar m).toNat - 48 = m := by
  interval_cases m <;> rfl

theorem digitsVal_toDigits : ∀ n : Nat, digitsVal (Nat.toDigits 10 n) = n := by
  intro n
  induction n using Nat.strong_induction_on with
  | _ n ih =>
    by_cases h : n < 10
    · rw [toDigits_small h]
      show 10 * 0 + ((Nat.digitChar n).toNat - 48) = n
      rw [digitChar_val h]
      omega
    · have h10 : 10 ≤ n := by omega
      rw [toDigits_step h10, digitsVal_append_one,
        ih (n / 10) (Nat.div_lt_self (by omega) (by omega)),
        digitChar_val (Nat.mod_lt n (by omega))]
      have := Nat.div_add_mod n 10
      omega

theorem toString_nat_injective : Function.Injective (toString : Nat → String) := by
  intro m n h
  have h2 : (Nat.toDigits 10 m).asString = (Nat.toDigits 10 n).asString := h
  have h3 : Nat.toDigits 10 m = Nat.toDigits 10 n := List.asString_inj.mp h2
  have h4 := digitsVal_toDigits m
  rw [h3, digitsVal_toDigits n] at h4
  exact h4.symm

/-! ## Keys of values -/

theorem keysOf_arr (f : Bool) (es : List JSValue) :
    keysOf (.arr f es) = (List.range es.length).map toString := by
  simp only [keysOf, ownEntries, List.map_map]
  have : (Prod.fst ∘ fun p : Nat × JSValue => (toString p.1, p.2))
      = toString ∘ Prod.fst := rfl
  rw [this, ← List.map_map, List.enum_map_fst]

theorem keysOf_arr_nodup (f : Bool) (es : List JSValue) :
    (keysOf (.arr f es)).Nodup := by
  rw [keysOf_arr]
  exact (List.nodup_range es.length).map toString_nat_injective

/-! ## Well-formed values

A JavaScript object cannot have two own properties with the same key, so
every value the runtime can hand to the module has duplicate-free keys at
every object node.  `WFJS` states exactly that. -/

inductive WFJS : JSValue → Prop where
  | prim (p : Prim) : WFJS (.prim p)
  | arr (f : Bool) (es : List JSValue) (h : ∀ e ∈ es, WFJS e) :
      WFJS (.arr f es)
  | obj (f : Bool) (pr : Nat) (fs : List (String × JSValue))
      (hk : (fs.map Prod.fst).Nodup) (h : ∀ p ∈ fs, WFJS p.2) :
      WFJS (.obj f pr fs)

theorem WFJS.arr_elem {f : Bool} {es : List JSValue}
    (h : WFJS (.arr f es)) : ∀ e ∈ es, WFJS e := by
  cases h with
  | arr _ _ h => exact h

theorem WFJS.obj_nodup {f : Bool} {pr : Nat} {fs : List (String × JSValue)}
    (h : WFJS (.obj f pr fs)) : (fs.map Prod.fst).Nodup := by
  cases h with
  | obj _ _ _ hk _ => exact hk

theorem WFJS.obj_val {f : Bool} {pr : Nat} {fs : List (String × JSValue)}
    (h : WFJS (.obj f pr fs)) : ∀ p ∈ fs, WFJS p.2 := by
  cases h with
  | obj _ _ _ _ hv => exact hv

theorem WFJS.ownEntries_wf {x : JSValue} (hx : WFJS x)
    {q : String × JSValue} (hq : q ∈ ownEntries x) : WFJS q.2 := by
  cases x with
  | prim a => simp [ownEntries] at hq
  | arr f es =>
    simp only [ownEntries, List.mem_map] at hq
    obtain ⟨r, hr, rfl⟩ := hq
    have hmem : r ∈ List.enumFrom 0 es := by simpa [List.enum] using hr
    have h2 : r.2 ∈ es := by
      obtain ⟨i, a⟩ := r
      obtain ⟨-, -, heq⟩ := List.mem_enumFrom hmem
      exact heq ▸ List.getElem_mem _
    exact hx.arr_elem r.2 h2
  | obj f pr fs => exact hx.obj_val q hq

theorem WFJS.getProp_wf {x : JSValue} (hx : WFJS x) (k : String) :
    WFJS (getProp x k) := by
  unfold getProp
  cases hf : (ownEntries x).find? (fun q => q.1 == k) with
  | none => exact WFJS.prim _
  | some r => exact hx.ownEntries_wf (List.mem_of_find?_eq_some hf)

theorem WFJS.keysOf_nodup {x : JSValue} (hx : WFJS x) :
    (keysOf x).Nodup := by
  cases x with
  | prim a => simp [keysOf, ownEntries]
  | arr f es => exact keysOf_arr_nodup f es
  | obj f pr fs => exact hx.obj_nodup

/-! ## Reflexivity of `isEqual` -/

theorem zip_self (xs : List JSValue) :
    xs.zip xs = xs.map (fun a => (a, a)) := by
  induction xs with
  | nil => rfl
  | cons a l ih => simp [List.zip_cons_cons, ih]

theorem sameValueZero_self (a : Prim) :
    (strictEqual (.prim a) (.prim a)
      || (isNaNv (.prim a) && isNaNv (.prim a))) = true := by
  cases a with
  | num n =>
    cases n with
    | nan => rfl
    | negZero => rfl
    | int m => simp [strictEqual, primStrictEq, numStrictEq]
  | undefined => rfl
  | null => rfl
  | bool b => simp [strictEqual, primStrictEq]
  | str t => simp [strictEqual, primStrictEq]

/-- `_isEqual` is reflexive: handing the very same (acyclic) value to both
parameters — in particular handing one reference twice — returns true. -/
theorem isEqual_refl : ∀ v : JSValue, isEqual v v = true := by
  have main : ∀ s : Nat, ∀ v : JSValue, jsSize v ≤ s → isEqual v v = true := by
    intro s
    induction s using Nat.strong_induction_on with
    | _ s ih =>
      intro v hs
      cases v with
      | prim a => rw [isEqual_prim_left]; exact sameValueZero_self a
      | arr f es =>
        rw [isEqual_arr, zip_self]
        simp only [beq_self_eq_true, Bool.true_and]
        rw [List.all_eq_true]
        intro q hq
        obtain ⟨a, ha, rfl⟩ := List.mem_map.mp hq
        have h1 : jsSize a < jsSize (JSValue.arr f es) := jsSize_mem_elems ha
        exact ih (jsSize a) (by omega) a le_rfl
      | obj b p fs =>
        rw [isEqual_objBranch (JSValue.obj b p fs) (JSValue.obj b p fs) rfl rfl rfl]
        simp only [beq_self_eq_true, Bool.true_and]
        rw [List.all_eq_true]
        intro k hk
        have hc : ((keysOf (JSValue.obj b p fs)).contains k) = true := by
          simpa using hk
        rw [hc, Bool.true_and]
        have h1 : jsSize (getProp (JSValue.obj b p fs) k)
            < jsSize (JSValue.obj b p fs) := jsSize_getProp_lt hk
        exact ih _ (by omega) _ le_rfl
  exact fun v => main (jsSize v) v le_rfl

/-! ## Symmetry of `isEqual` -/

theorem subset_of_subset_nodup_len {s t : List String} (h : s ⊆ t)
    (hs : s.Nodup) (ht : t.Nodup) (hl : s.length = t.length) : t ⊆ s := by
  intro a ha
  have h1 : s.toFinset ⊆ t.toFinset := by
    intro x hx
    simp only [List.mem_toFinset] at hx ⊢
    exact h hx
  have h2 : s.toFinset.card = t.toFinset.card := by
    rw [List.toFinset_card_of_nodup hs, List.toFinset_card_of_nodup ht, hl]
  have h3 := Finset.eq_of_subset_of_card_le h1 (le_of_eq h2.symm)
  rw [← List.mem_toFinset, ← h3, List.mem_toFinset] at ha
  exact ha

theorem zipAll_symm (xs ys : List JSValue)
    (H : ∀ a ∈ xs, ∀ b ∈ ys, isEqual a b = isEqual b a) :
    ((xs.zip ys).all fun p => isEqual p.1 p.2)
      = ((ys.zip xs).all fun p => isEqual p.1 p.2) := by
  induction xs generalizing ys with
  | nil => cases ys <;> rfl
  | cons a xs ih =>
    cases ys with
    | nil => rfl
    | cons b ys =>
      simp only [List.zip_cons_cons, List.all_cons]
      rw [H a (by simp) b (by simp),
        ih ys (fun a2 ha2 b2 hb2 => H a2 (by simp [ha2]) b2 (by simp [hb2]))]

theorem keysAll_symm (x y : JSValue)
    (hnx : (keysOf x).Nodup) (hny : (keysOf y).Nodup)
    (hlen : (keysOf x).length = (keysOf y).length)
    (H : ∀ k, k ∈ keysOf x → k ∈ keysOf y →
      isEqual (getProp x k) (getProp y k) = isEqual (getProp y k) (getProp x k)) :
    ((keysOf x).all fun k =>
        (keysOf y).contains k && isEqual (getProp x k) (getProp y k))
      = ((keysOf y).all fun k =>
          (keysOf x).contains k && isEqual (getProp y k) (getProp x k)) := by
  apply Bool.coe_iff_coe.mp
  constructor
  · intro hall
    rw [List.all_eq_true] at hall ⊢
    have hsub : keysOf x ⊆ keysOf y := by
      intro k hk
      have h1 := hall k hk
      rw [Bool.and_eq_true] at h1
      simpa using h1.1
    have hsup : keysOf y ⊆ keysOf x :=
      subset_of_subset_nodup_len hsub hnx hny hlen
    intro k hk
    have hkx : k ∈ keysOf x := hsup hk
    have h1 := hall k hkx
    rw [Bool.and_eq_true] at h1
    have hc2 : ((keysOf x).contains k) = true := by simpa using hkx
    rw [hc2, Bool.true_and, ← H k hkx hk]
    exact h1.2
  · intro hall
    rw [List.all_eq_true] at hall ⊢
    have hsub : keysOf y ⊆ keysOf x := by
      intro k hk
      have h1 := hall k hk
      rw [Bool.and_eq_true] at h1
      simpa using h1.1
    have hsup : keysOf x ⊆ keysOf y :=
      subset_of_subset_nodup_len hsub hny hnx hlen.symm
    intro k hk
    have hky : k ∈ keysOf y := hsup hk
    have h1 := hall k hky
    rw [Bool.and_eq_true] at h1
    have hc2 : ((keysOf y).contains k) = true := by simpa using hky
    rw [hc2, Bool.true_and, H k hk hky]
    exact h1.2

/-- The object branch is symmetric given duplicate-free keys on both
sides and a symmetric recursion. -/
theorem isEqual_objBranch_symm (x y : JSValue) (hx : isObjectV x = true)
    (hy : isObjectV y = true) (hno : (isArrayV x && isArrayV y) = false)
    (hnx : (keysOf x).Nodup) (hny : (keysOf y).Nodup)
    (H : ∀ k, k ∈ keysOf x → k ∈ keysOf y →
      isEqual (getProp x k) (getProp y k) = isEqual (getProp y k) (getProp x k)) :
    isEqual x y = isEqual y x := by
  rw [isEqual_objBranch x y hx hy hno,
    isEqual_objBranch y x hy hx (by rw [Bool.and_comm]; exact hno)]
  by_cases hp : protoOf x = protoOf y
  · have h1 : (protoOf x == protoOf y) = true := by simp [hp]
    have h2 : (protoOf y == protoOf x) = true := by simp [hp]
    rw [h1, h2, Bool.true_and, Bool.true_and]
    by_cases hlen : (keysOf x).length = (keysOf y).length
    · have h3 : ((keysOf x).length == (keysOf y).length) = true := by simp [hlen]
      have h4 : ((keysOf y).length == (keysOf x).length) = true := by simp [hlen]
      rw [h3, h4, Bool.true_and, Bool.true_and]
      exact keysAll_symm x y hnx hny hlen H
    · have h3 : ((keysOf x).length == (keysOf y).length) = false := by simp [hlen]
      have h4 : ((keysOf y).length == (keysOf x).length) = false := by
        simp only [beq_eq_false_iff_ne, ne_eq]
        omega
      rw [h3, h4, Bool.false_and, Bool.false_and]
  · have h1 : (protoOf x == protoOf y) = false := by simp [hp]
    have h2 : (protoOf y == protoOf x) = false := by
      simp only [beq_eq_false_iff_ne, ne_eq]
      exact fun e => hp e.symm
    rw [h1, h2, Bool.false_and, Bool.false_and, Bool.false_and, Bool.false_and]

/-- `_isEqual` is symmetric on well-formed values. -/
theorem isEqual_symm_aux : ∀ s : Nat, ∀ x y : JSValue,
    jsSize x + jsSize y ≤ s → WFJS x → WFJS y →
    isEqual x y = isEqual y x := by
  intro s
  induction s using Nat.strong_induction_on with
  | _ s ih =>
    intro x y hs hx hy
    have hrec : isObjectV x = true → isObjectV y = true →
        ∀ k, k ∈ keysOf x → k ∈ keysOf y →
        isEqual (getProp x k) (getProp y k)
          = isEqual (getProp y k) (getProp x k) := by
      intro _ _ k hkx hky
      have h1 : jsSize (getProp x k) < jsSize x := jsSize_getProp_lt hkx
      have h2 : jsSize (getProp y k) < jsSize y := jsSize_getProp_lt hky
      exact ih (jsSize (getProp x k) + jsSize (getProp y k)) (by omega)
        _ _ le_rfl (hx.getProp_wf k) (hy.getProp_wf k)
    cases x with
    | prim a =>
      rw [isEqual_prim_left, isEqual_prim_right, strictEqual_symm,
        Bool.and_comm]
    | arr f es =>
      cases y with
      | prim b =>
        rw [isEqual_prim_right, isEqual_prim_left, strictEqual_symm,
          Bool.and_comm]
      | arr g fs =>
        rw [isEqual_arr, isEqual_arr, beqComm]
        have hall : ((es.zip fs).all fun p => isEqual p.1 p.2)
            = ((fs.zip es).all fun p => isEqual p.1 p.2) := by
          apply zipAll_symm
          intro a ha b hb
          have h1 : jsSize a < jsSize (JSValue.arr f es) := jsSize_mem_elems ha
          have h2 : jsSize b < jsSize (JSValue.arr g fs) := jsSize_mem_elems hb
          exact ih (jsSize a + jsSize b) (by omega) a b le_rfl
            (hx.arr_elem a ha) (hy.arr_elem b hb)
        rw [hall]
      | obj gb gp gfs =>
        exact isEqual_objBranch_symm (JSValue.arr f es) (JSValue.obj gb gp gfs)
          rfl rfl rfl (keysOf_arr_nodup f es) hy.keysOf_nodup (hrec rfl rfl)
    | obj b p fs =>
      cases y with
      | prim c =>
        rw [isEqual_prim_right, isEqual_prim_left, strictEqual_symm,
          Bool.and_comm]
      | arr g es2 =>
        exact isEqual_objBranch_symm (JSValue.obj b p fs) (JSValue.arr g es2)
          rfl rfl rfl hx.keysOf_nodup (keysOf_arr_nodup g es2) (hrec rfl rfl)
      | obj c q gs =>
        exact isEqual_objBranch_symm (JSValue.obj b p fs) (JSValue.obj c q gs)
          rfl rfl rfl hx.keysOf_nodup hy.keysOf_nodup (hrec rfl rfl)

/-! ## Characterization of object equality (both non-array objects) -/

theorem isEqual_obj_obj_iff (bx : Bool) (px : Nat)
    (fsx : List (String × JSValue)) (gy : Bool) (py : Nat)
    (fsy : List (String × JSValue))
    (hnx : (fsx.map Prod.fst).Nodup) (hny : (fsy.map Prod.fst).Nodup) :
    isEqual (.obj bx px fsx) (.obj gy py fsy) = true ↔
      (px = py ∧ fsx.length = fsy.length ∧
        ∀ p ∈ fsx, ∃ q ∈ fsy, q.1 = p.1 ∧ isEqual p.2 q.2 = true) := by
  rw [isEqual_objBranch (JSValue.obj bx px fsx) (JSValue.obj gy py fsy)
    rfl rfl rfl]
  constructor
  · intro h
    rw [Bool.and_eq_true, Bool.and_eq_true] at h
    obtain ⟨⟨hproto, hlen⟩, hall⟩ := h
    have hp : px = py := by simpa [protoOf] using hproto
    have hl : fsx.length = fsy.length := by
      simpa [keysOf, ownEntries] using hlen
    refine ⟨hp, hl, ?_⟩
    intro p hp2
    rw [List.all_eq_true] at hall
    have hk : p.1 ∈ keysOf (JSValue.obj bx px fsx) := by
      simp only [keysOf, ownEntries]
      exact List.mem_map_of_mem Prod.fst hp2
    have h2 := hall p.1 hk
    rw [Bool.and_eq_true] at h2
    obtain ⟨hc, he⟩ := h2
    have hky : p.1 ∈ fsy.map Prod.fst := by
      simpa [keysOf, ownEntries] using hc
    obtain ⟨q, hq, hq1⟩ := List.mem_map.mp hky
    refine ⟨q, hq, hq1, ?_⟩
    have hgx : getProp (JSValue.obj bx px fsx) p.1 = p.2 :=
      getProp_obj_of_mem hnx hp2
    have hgy : getProp (JSValue.obj gy py fsy) p.1 = q.2 := by
      have h0 := @getProp_obj_of_mem gy py fsy hny q hq
      rw [hq1] at h0
      exact h0
    rw [hgx, hgy] at he
    exact he
  · rintro ⟨hp, hl, hall⟩
    rw [Bool.and_eq_true, Bool.and_eq_true]
    refine ⟨⟨by simp [protoOf, hp], by simp [keysOf, ownEntries, hl]⟩, ?_⟩
    rw [List.all_eq_true]
    intro k hk
    rw [Bool.and_eq_true]
    have hkx : k ∈ fsx.map Prod.fst := by
      simpa [keysOf, ownEntries] using hk
    obtain ⟨p, hpmem, rfl⟩ := List.mem_map.mp hkx
    obtain ⟨q, hqmem, hq1, he⟩ := hall p hpmem
    constructor
    · have hqy : p.1 ∈ fsy.map Prod.fst :=
        hq1 ▸ List.mem_map_of_mem Prod.fst hqmem
      simpa [keysOf, ownEntries] using hqy
    · rw [getProp_obj_of_mem hnx hpmem]
      have hgy : getProp (JSValue.obj gy py fsy) p.1 = q.2 := by
        have h0 := @getProp_obj_of_mem gy py fsy hny q hqmem
        rw [hq1] at h0
        exact h0
      rw [hgy]
      exact he

/-! ## `Object.fromEntries`: last write wins -/

theorem lookup_replace_hit {k₀ : String} {v : JSValue} :
    ∀ fs : List (String × JSValue), fs.any (fun p => p.1 == k₀) = true →
      lookupField (fs.map (fun p => if p.1 == k₀ then (k₀, v) else p)) k₀
        = some v := by
  intro fs
  induction fs with
  | nil => intro h; simp at h
  | cons p fs ih =>
    intro h
    by_cases hp : p.1 = k₀
    · have hb : (p.1 == k₀) = true := by simp [hp]
      simp only [List.map_cons, hb, if_true]
      simp only [lookupField]
      rw [List.find?_cons_of_pos _ (by simp)]
      rfl
    · have hb : (p.1 == k₀) = false := by simp [hp]
      simp only [List.map_cons, hb, Bool.false_eq_true, if_false]
      rw [List.any_cons, hb, Bool.false_or] at h
      have htail := ih h
      simp only [lookupField] at htail ⊢
      rw [List.find?_cons_of_neg _ (by simp [hp])]
      exact htail

theorem lookup_replace_miss {k₀ k : String} {v : JSValue} (hk : k₀ ≠ k) :
    ∀ fs : List (String × JSValue),
      lookupField (fs.map (fun p => if p.1 == k₀ then (k₀, v) else p)) k
        = lookupField fs k := by
  intro fs
  induction fs with
  | nil => rfl
  | cons p fs ih =>
    by_cases hp : p.1 = k₀
    · have hb : (p.1 == k₀) = true := by simp [hp]
      simp only [List.map_cons, hb, if_true]
      simp only [lookupField] at ih ⊢
      rw [List.find?_cons_of_neg _ (by simp [hk]),
        List.find?_cons_of_neg _ (by simp [hp, hk])]
      exact ih
    · have hb : (p.1 == k₀) = false := by simp [hp]
      simp only [List.map_cons, hb, Bool.false_eq_true, if_false]
      by_cases hpk : p.1 = k
      · simp only [lookupField]
        rw [List.find?_cons_of_pos _ (by simp [hpk]),
          List.find?_cons_of_pos _ (by simp [hpk])]
      · simp only [lookupField] at ih ⊢
        rw [List.find?_cons_of_neg _ (by simp [hpk]),
          List.find?_cons_of_neg _ (by simp [hpk])]
        exact ih

theorem lookupField_insertField (fs : List (String × JSValue))
    (k₀ k : String) (v : JSValue) :
    lookupField (insertField fs k₀ v) k
      = if k₀ = k then some v else lookupField fs k := by
  unfold insertField
  by_cases hex : fs.any (fun p => p.1 == k₀) = true
  · rw [if_pos hex]
    by_cases hk : k₀ = k
    · subst hk
      rw [if_pos rfl]
      exact lookup_replace_hit fs hex
    · rw [if_neg hk]
      exact lookup_replace_miss hk fs
  · rw [if_neg hex]
    by_cases hk : k₀ = k
    · subst hk
      rw [if_pos rfl]
      have hnone : fs.find? (fun p => p.1 == k₀) = none := by
        rw [List.find?_eq_none]
        intro p hp hpp
        exact hex (List.any_eq_true.mpr ⟨p, hp, hpp⟩)
      unfold lookupField
      rw [List.find?_append, hnone]
      rw [List.find?_cons_of_pos _ (by simp)]
      rfl
    · rw [if_neg hk]
      unfold lookupField
      rw [List.find?_append]
      have h1 : ([(k₀, v)].find? (fun p => p.1 == k)) = none := by
        rw [List.find?_cons_of_neg _ (by simp [hk])]
        rfl
      rw [h1]
      cases hf : fs.find? (fun p => p.1 == k) <;> simp [Option.or]

theorem lookupField_foldl_insert :
    ∀ es acc : List (String × JSValue), ∀ k : String,
      lookupField (es.foldl (fun fs e => insertField fs e.1 e.2) acc) k
        = ((es.reverse.find? (fun p => p.1 == k)).map Prod.snd).or
            (lookupField acc k) := by
  intro es
  induction es with
  | nil =>
    intro acc k
    simp [Option.or]
  | cons e es ih =>
    intro acc k
    show lookupField (es.foldl _ (insertField acc e.1 e.2)) k = _
    rw [ih, lookupField_insertField, List.reverse_cons, List.find?_append]
    cases hf : es.reverse.find? (fun p => p.1 == k) with
    | some p => simp [Option.or]
    | none =>
      by_cases he : e.1 = k
      · rw [List.find?_cons_of_pos _ (by simp [he])]
        simp [he, Option.or]
      · rw [List.find?_cons_of_neg _ (by simp [he])]
        simp [he, Option.or]

/-- The value `Object.fromEntries` associates with a key is the value of
the key's last occurrence among the entries. -/
theorem lookupField_fieldsFromEntries (entries : List (String × JSValue))
    (k : String) :
    lookupField (fieldsFromEntries entries) k
      = (entries.reverse.find? (fun p => p.1 == k)).map Prod.snd := by
  have h := lookupField_foldl_insert entries [] k
  unfold fieldsFromEntries
  rw [h]
  cases (entries.reverse.find? (fun p => p.1 == k)).map Prod.snd <;>
    simp [Option.or, lookupField]

/-! ## A heap model for the copy-on-create property

The frame property of `Record` ("mutating the source object afterwards
does not change the record") is about aliasing, which the term model
cannot express.  Here objects live in an explicit heap (a list of
frozen-flag/field-list cells, references are indices), `createRecord`
performs `Object.freeze(Object.assign({}, O))` — allocate a fresh cell
holding a copy of the source's fields, frozen — and `writeObj` is an
arbitrary mutation of one cell (covering adding, removing and
reassigning keys). -/

structure HeapObj where
  frozen : Bool
  fields : List (String × JSValue)

/-- The own enumerable properties of the object at reference `r`. -/
def readFields (h : List HeapObj) (r : Nat) : List (String × JSValue) :=
  match h[r]? with
  | some o => o.fields
  | none => []

/-- The frozen marker of the object at reference `r`. -/
def readFrozen (h : List HeapObj) (r : Nat) : Bool :=
  match h[r]? with
  | some o => o.frozen
  | none => false

/-- `Record(O)` = `Object.freeze(Object.assign({}, O))` with the heap
explicit: allocate a fresh object carrying a copy of `O`'s fields, with
the frozen marker set; return the new heap and the fresh reference. -/
def createRecord (h : List HeapObj) (r : Nat) : List HeapObj × Nat :=
  (h ++ [⟨true, readFields h r⟩], h.length)

/-- Overwrite the cell at reference `r` (an arbitrary mutation of that
object). -/
def writeObj (h : List HeapObj) (r : Nat) (o : HeapObj) : List HeapObj :=
  h.set r o

/-! ## Shorthand values -/

/-- A whole-number value. -/
def jnum (n : Int) : JSValue := .prim (.num (.int n))

/-- The NaN value. -/
def jnan : JSValue := .prim (.num .nan)

/-- The negative-zero value. -/
def jnegZero : JSValue := .prim (.num .negZero)

/-! ## Heap read lemmas -/

theorem readFields_append_self (h : List HeapObj) (c : HeapObj) :
    readFields (h ++ [c]) h.length = c.fields := by
  unfold readFields
  have hget : (h ++ [c])[h.length]? = some c := by simp
  rw [hget]

theorem readFrozen_append_self (h : List HeapObj) (c : HeapObj) :
    readFrozen (h ++ [c]) h.length = c.frozen := by
  unfold readFrozen
  have hget : (h ++ [c])[h.length]? = some c := by simp
  rw [hget]

theorem readFields_set_ne (h : List HeapObj) (r m : Nat) (o : HeapObj)
    (hne : r ≠ m) : readFields (h.set r o) m = readFields h m := by
  unfold readFields
  rw [List.getElem?_set_ne hne]

/-! ## The claims -/

/-- C1: for non-null, non-sequence structured objects (with the
duplicate-free keys every JavaScript object has), `isEqual x y` is true
exactly when the prototypes agree, the numbers of own enumerable keys
agree, and every key of `x` occurs in `y` with recursively equal value;
the result is invariant under reordering the keys of either side, and
differing prototypes force inequality.  (In this heapless model any two
structured arguments are distinct references, hence the absence of a
reference-identity hypothesis.) -/
theorem object_equality_characterization (bx : Bool) (px : Nat)
    (fsx : List (String × JSValue)) (gy : Bool) (py : Nat)
    (fsy : List (String × JSValue))
    (hnx : (fsx.map Prod.fst).Nodup) (hny : (fsy.map Prod.fst).Nodup) :
    (isEqual (.obj bx px fsx) (.obj gy py fsy) = true ↔
      (px = py ∧ fsx.length = fsy.length ∧
        ∀ p ∈ fsx, ∃ q ∈ fsy, q.1 = p.1 ∧ isEqual p.2 q.2 = true))
    ∧ (∀ fsx2 fsy2 : List (String × JSValue), fsx2.Perm fsx → fsy2.Perm fsy →
        isEqual (.obj bx px fsx2) (.obj gy py fsy2)
          = isEqual (.obj bx px fsx) (.obj gy py fsy))
    ∧ (px ≠ py → isEqual (.obj bx px fsx) (.obj gy py fsy) = false) := by
  refine ⟨isEqual_obj_obj_iff bx px fsx gy py fsy hnx hny, ?_, ?_⟩
  · intro fsx2 fsy2 hpx hpy
    have hnx2 : (fsx2.map Prod.fst).Nodup := ((hpx.map Prod.fst).nodup_iff).mpr hnx
    have hny2 : (fsy2.map Prod.fst).Nodup := ((hpy.map Prod.fst).nodup_iff).mpr hny
    apply Bool.coe_iff_coe.mp
    rw [isEqual_obj_obj_iff bx px fsx2 gy py fsy2 hnx2 hny2,
      isEqual_obj_obj_iff bx px fsx gy py fsy hnx hny]
    constructor
    · rintro ⟨h1, h2, h3⟩
      refine ⟨h1, by rw [← hpx.length_eq, ← hpy.length_eq]; exact h2, ?_⟩
      intro p hp
      obtain ⟨q, hq, hq1, he⟩ := h3 p (hpx.mem_iff.mpr hp)
      exact ⟨q, hpy.mem_iff.mp hq, hq1, he⟩
    · rintro ⟨h1, h2, h3⟩
      refine ⟨h1, by rw [hpx.length_eq, hpy.length_eq]; exact h2, ?_⟩
      intro p hp
      obtain ⟨q, hq, hq1, he⟩ := h3 p (hpx.mem_iff.mp hp)
      exact ⟨q, hpy.mem_iff.mpr hq, hq1, he⟩
  · intro hne
    rw [isEqual_objBranch (JSValue.obj bx px fsx) (JSValue.obj gy py fsy)
      rfl rfl rfl]
    have hbeq : (protoOf (JSValue.obj bx px fsx)
        == protoOf (JSValue.obj gy py fsy)) = false := by
      simp [protoOf, hne]
    rw [hbeq, Bool.false_and, Bool.false_and]

/-- Witness for C1 at two one-field objects that differ only in their
frozen marker (hence are distinct values, as two distinct references
are). -/
theorem object_equality_characterization_witness :
    (isEqual (.obj false 0 [("a", jnum 1)]) (.obj true 0 [("a", jnum 1)]) = true ↔
      ((0 : Nat) = 0 ∧ ([("a", jnum 1)] : List (String × JSValue)).length = [("a", jnum 1)].length ∧
        ∀ p ∈ ([("a", jnum 1)] : List (String × JSValue)),
          ∃ q ∈ ([("a", jnum 1)] : List (String × JSValue)),
            q.1 = p.1 ∧ isEqual p.2 q.2 = true))
    ∧ (∀ fsx2 fsy2 : List (String × JSValue),
        fsx2.Perm [("a", jnum 1)] → fsy2.Perm [("a", jnum 1)] →
        isEqual (.obj false 0 fsx2) (.obj true 0 fsy2)
          = isEqual (.obj false 0 [("a", jnum 1)]) (.obj true 0 [("a", jnum 1)]))
    ∧ ((0 : Nat) ≠ 0 →
        isEqual (.obj false 0 [("a", jnum 1)]) (.obj true 0 [("a", jnum 1)]) = false) :=
  object_equality_characterization false 0 [("a", jnum 1)] true 0 [("a", jnum 1)]
    (by decide) (by decide)

/-- C2: on two sequences, `isEqual` is false when the lengths differ, true
on two empty sequences, and otherwise the element-wise conjunction of the
recursive comparisons; in particular `Sequence.of(1,2)` and
`Sequence.of(1,2,3)` compare unequal. -/
theorem sequence_equality_characterization (f g : Bool)
    (xs ys : List JSValue) :
    (isEqual (.arr f xs) (.arr g ys)
      = ((xs.length == ys.length) && (xs.zip ys).all (fun p => isEqual p.1 p.2)))
    ∧ (xs.length ≠ ys.length → isEqual (.arr f xs) (.arr g ys) = false)
    ∧ (xs = [] → ys = [] → isEqual (.arr f xs) (.arr g ys) = true)
    ∧ isEqual (Tuple.of [jnum 1, jnum 2]) (Tuple.of [jnum 1, jnum 2, jnum 3])
        = false := by
  refine ⟨isEqual_arr f g xs ys, ?_, ?_, by decide⟩
  · intro hne
    rw [isEqual_arr]
    have : (xs.length == ys.length) = false := by simp [hne]
    rw [this, Bool.false_and]
  · rintro rfl rfl
    rw [isEqual_arr]
    rfl

/-- C3: `isEqual` uses SameValueZero at the leaves: values identical
under reference or primitive identity compare equal (for structured
values, handing the same value to both sides), and two NaNs compare
equal; consequently `[1, NaN]` equals `[1, NaN]` and `[0]` equals
`[-0]`. -/
theorem sameValueZero_leaves (x y z : JSValue)
    (h : strictEqual x y = true ∨ (isNaNv x = true ∧ isNaNv y = true)) :
    isEqual x y = true
    ∧ isEqual z z = true
    ∧ isEqual (Tuple.of [jnum 1, jnan]) (Tuple.of [jnum 1, jnan]) = true
    ∧ isEqual (.arr true [jnan]) (.arr false [jnan]) = true
    ∧ isEqual (Tuple.of [jnum 0]) (Tuple.of [jnegZero]) = true := by
  refine ⟨?_, isEqual_refl z, by decide, by decide, by decide⟩
  rw [isEqual_unfold]
  unfold isEqualStep
  have hc : (strictEqual x y || (isNaNv x && isNaNv y)) = true := by
    rcases h with h | ⟨h1, h2⟩
    · simp [h]
    · simp [h1, h2]
  rw [hc]
  rfl

/-- Witness for C3 at a pair of identical number primitives and a
sequence handed to both sides. -/
theorem sameValueZero_leaves_witness :
    isEqual (jnum 1) (jnum 1) = true
    ∧ isEqual (Tuple [jnum 2]) (Tuple [jnum 2]) = true
    ∧ isEqual (Tuple.of [jnum 1, jnan]) (Tuple.of [jnum 1, jnan]) = true
    ∧ isEqual (.arr true [jnan]) (.arr false [jnan]) = true
    ∧ isEqual (Tuple.of [jnum 0]) (Tuple.of [jnegZero]) = true :=
  sameValueZero_leaves (jnum 1) (jnum 1) (Tuple [jnum 2])
    (Or.inl (by decide))

/-- C4 counterexample: a sequence and a non-sequence object that carries
the sequence prototype and the matching index key compare EQUAL, so the
claim "mismatched kinds always compare unequal" fails as stated:
`_isEqual([1], Object.create(Array.prototype) with "0" ↦ 1)` is true. -/
theorem mixed_kind_counterexample :
    isArrayV (.arr true [jnum 1]) = true
    ∧ isArrayV (.obj false arrayProtoId [("0", jnum 1)]) = false
    ∧ isObjectV (.obj false arrayProtoId [("0", jnum 1)]) = true
    ∧ isEqual (.arr true [jnum 1]) (.obj false arrayProtoId [("0", jnum 1)])
        = true := by
  refine ⟨rfl, rfl, rfl, by decide⟩

/-- C4 (amended): a sequence and a non-sequence object compare unequal
whenever the object's prototype is not the sequence prototype (which is
the case for every ordinarily constructed object), in either order; and
two primitives that are neither strictly equal nor both NaN compare
unequal. -/
theorem mixed_kind_amended (x y : JSValue) :
    (isArrayV x = true → isObjectV y = true → isArrayV y = false →
      protoOf y ≠ some arrayProtoId → isEqual x y = false)
    ∧ (isArrayV y = true → isObjectV x = true → isArrayV x = false →
      protoOf x ≠ some arrayProtoId → isEqual x y = false)
    ∧ (∀ a b : Prim, x = .prim a → y = .prim b → strictEqual x y = false →
      ¬(isNaNv x = true ∧ isNaNv y = true) → isEqual x y = false) := by
  refine ⟨?_, ?_, ?_⟩
  · intro h1 h2 h3 h4
    cases x with
    | prim a => simp [isArrayV] at h1
    | obj b p fs => simp [isArrayV] at h1
    | arr f es =>
      cases y with
      | prim c => simp [isObjectV] at h2
      | arr g fs2 => simp [isArrayV] at h3
      | obj g q gs =>
        rw [isEqual_objBranch (JSValue.arr f es) (JSValue.obj g q gs)
          rfl rfl rfl]
        have hbeq : (protoOf (JSValue.arr f es)
            == protoOf (JSValue.obj g q gs)) = false := by
          simp only [beq_eq_false_iff_ne, ne_eq]
          intro e
          exact h4 (e ▸ rfl)
        rw [hbeq, Bool.false_and, Bool.false_and]
  · intro h1 h2 h3 h4
    cases y with
    | prim a => simp [isArrayV] at h1
    | obj b p fs => simp [isArrayV] at h1
    | arr f es =>
      cases x with
      | prim c => simp [isObjectV] at h2
      | arr g fs2 => simp [isArrayV] at h3
      | obj g q gs =>
        rw [isEqual_objBranch (JSValue.obj g q gs) (JSValue.arr f es)
          rfl rfl rfl]
        have hbeq : (protoOf (JSValue.obj g q gs)
            == protoOf (JSValue.arr f es)) = false := by
          simp only [beq_eq_false_iff_ne, ne_eq]
          intro e
          exact h4 e
        rw [hbeq, Bool.false_and, Bool.false_and]
  · rintro a b rfl rfl hse hnan
    rw [isEqual_prim_left, hse, Bool.false_or]
    cases hna : isNaNv (JSValue.prim a) with
    | false => rw [Bool.false_and]
    | true =>
      cases hnb : isNaNv (JSValue.prim b) with
      | false => rw [Bool.and_false]
      | true => exact absurd ⟨hna, hnb⟩ hnan

/-- C5: `isEqual` is total and its recursion is well-founded on the
structure of its (acyclic) arguments: any fuel of at least the structural
size of the first argument computes the same answer, the function
satisfies the one-step fixpoint equation of the source's recursion, and
the result is always a boolean. -/
theorem isEqual_total_and_wellfounded (x y : JSValue) (n : Nat)
    (hn : jsSize x ≤ n) :
    isEqualFuel n x y = isEqual x y
    ∧ isEqual x y = isEqualStep isEqual x y
    ∧ (isEqual x y = true ∨ isEqual x y = false) := by
  refine ⟨isEqualFuel_spec x y n hn, isEqual_unfold x y, ?_⟩
  cases h : isEqual x y
  · right; rfl
  · left; rfl

/-- Witness for C5 at a small sequence with more than enough fuel. -/
theorem isEqual_total_and_wellfounded_witness :
    isEqualFuel 5 (Tuple [jnum 1]) (Tuple [jnum 1])
        = isEqual (Tuple [jnum 1]) (Tuple [jnum 1])
    ∧ isEqual (Tuple [jnum 1]) (Tuple [jnum 1])
        = isEqualStep isEqual (Tuple [jnum 1]) (Tuple [jnum 1])
    ∧ (isEqual (Tuple [jnum 1]) (Tuple [jnum 1]) = true
        ∨ isEqual (Tuple [jnum 1]) (Tuple [jnum 1]) = false) :=
  isEqual_total_and_wellfounded (Tuple [jnum 1]) (Tuple [jnum 1]) 5 (by decide)

/-- C6: `isMapping` is a frozen-object test, not a type test: it is true
exactly on non-primitive (hence non-null) values carrying the frozen
marker — so it accepts a record built by `Mapping.create`, accepts a
frozen sequence, and rejects a plain unfrozen object. -/
theorem isRecord_is_frozen_object_test (v : JSValue) :
    (Record.isRecord v = true ↔ ((∀ p : Prim, v ≠ .prim p) ∧ isFrozen v = true))
    ∧ Record.isRecord (Record (.obj false objectProtoId [("a", jnum 1)])) = true
    ∧ Record.isRecord (.arr true [jnum 1]) = true
    ∧ Record.isRecord (.obj false objectProtoId [("a", jnum 1)]) = false := by
  refine ⟨?_, by decide, by decide, by decide⟩
  cases v with
  | prim p =>
    constructor
    · intro h
      simp [Record.isRecord, isObjectV] at h
    · rintro ⟨hnp, -⟩
      exact absurd rfl (hnp p)
  | arr f es =>
    constructor
    · intro h
      refine ⟨fun p => by simp, ?_⟩
      simpa [Record.isRecord, isObjectV, isFrozen] using h
    · rintro ⟨-, hf⟩
      have hf2 : f = true := hf
      simp [Record.isRecord, isObjectV, isFrozen, hf2]
  | obj b p fs =>
    constructor
    · intro h
      refine ⟨fun p => by simp, ?_⟩
      simpa [Record.isRecord, isObjectV, isFrozen] using h
    · rintro ⟨-, hf⟩
      have hf2 : b = true := hf
      simp [Record.isRecord, isObjectV, isFrozen, hf2]

/-- C7: `Mapping.fromEntries` builds a frozen mapping whose key set is
exactly the keys occurring among the entries, and a key occurring several
times is bound to the value of its last occurrence (last write wins). -/
theorem fromEntries_last_write_wins (entries : List (String × JSValue))
    (k : String) :
    isFrozen (Record.fromEntries entries) = true
    ∧ (k ∈ keysOf (Record.fromEntries entries) ↔ k ∈ entries.map Prod.fst)
    ∧ lookupField (fieldsFromEntries entries) k
        = (entries.reverse.find? (fun p => p.1 == k)).map Prod.snd := by
  have hmain := lookupField_fieldsFromEntries entries k
  refine ⟨rfl, ?_, hmain⟩
  constructor
  · intro hk
    have h2 : ∃ r, (fieldsFromEntries entries).find? (fun q => q.1 == k)
        = some r :=
      (find?_key_isSome_iff _ k).mpr
        (by simpa [keysOf, ownEntries, Record.fromEntries] using hk)
    obtain ⟨r, hr⟩ := h2
    have hl : lookupField (fieldsFromEntries entries) k = some r.2 := by
      simp [lookupField, hr]
    rw [hmain] at hl
    cases hf : entries.reverse.find? (fun p => p.1 == k) with
    | none => rw [hf] at hl; simp at hl
    | some q =>
      have hqm : q ∈ entries.reverse := List.mem_of_find?_eq_some hf
      have hq1 : q.1 = k := by simpa using List.find?_some hf
      have hqe : q ∈ entries := List.mem_reverse.mp hqm
      exact hq1 ▸ List.mem_map_of_mem Prod.fst hqe
  · intro hk
    obtain ⟨p, hp, rfl⟩ := List.mem_map.mp hk
    have hsome : (entries.reverse.find? (fun q => q.1 == p.1)).isSome := by
      rw [List.find?_isSome]
      exact ⟨p, List.mem_reverse.mpr hp, by simp⟩
    obtain ⟨q, hq⟩ := Option.isSome_iff_exists.mp hsome
    have hl : lookupField (fieldsFromEntries entries) p.1 = some q.2 := by
      rw [hmain, hq]
      rfl
    have h3 : ∃ r, (fieldsFromEntries entries).find? (fun q2 => q2.1 == p.1)
        = some r := by
      unfold lookupField at hl
      cases hf : (fieldsFromEntries entries).find? (fun q2 => q2.1 == p.1) with
      | none => rw [hf] at hl; simp at hl
      | some r => exact ⟨r, rfl⟩
    have h4 := (find?_key_isSome_iff _ p.1).mp h3
    simpa [keysOf, ownEntries, Record.fromEntries] using h4

/-- C8: `Mapping.create` copies on create: the record is a fresh, frozen
object whose observed key/value pairs are those of the source at creation
time, and an arbitrary later mutation of the source object (adding,
removing or reassigning keys) leaves them unchanged. -/
theorem record_create_copy_on_create (h : List HeapObj) (r : Nat)
    (hr : r < h.length) :
    (createRecord h r).2 ≠ r
    ∧ readFrozen (createRecord h r).1 (createRecord h r).2 = true
    ∧ readFields (createRecord h r).1 (createRecord h r).2 = readFields h r
    ∧ ∀ o2 : HeapObj,
        readFields (writeObj (createRecord h r).1 r o2) (createRecord h r).2
          = readFields h r := by
  refine ⟨?_, ?_, ?_, ?_⟩
  · show h.length ≠ r
    omega
  · show readFrozen (h ++ [(⟨true, readFields h r⟩ : HeapObj)]) h.length = true
    rw [readFrozen_append_self]
  · show readFields (h ++ [(⟨true, readFields h r⟩ : HeapObj)]) h.length
        = readFields h r
    rw [readFields_append_self]
  · intro o2
    show readFields ((h ++ [(⟨true, readFields h r⟩ : HeapObj)]).set r o2)
        h.length = readFields h r
    rw [readFields_set_ne _ _ _ _ (by omega), readFields_append_self]

/-- A concrete one-object heap cell for the C8 witness. -/
def demoCell : HeapObj := ⟨false, [("a", jnum 1)]⟩

/-- Witness for C8 at a one-object heap mutated after the record is
created. -/
theorem record_create_copy_on_create_witness :
    (createRecord [demoCell] 0).2 ≠ 0
    ∧ readFrozen (createRecord [demoCell] 0).1 (createRecord [demoCell] 0).2
        = true
    ∧ readFields (createRecord [demoCell] 0).1 (createRecord [demoCell] 0).2
        = readFields [demoCell] 0
    ∧ ∀ o2 : HeapObj,
        readFields (writeObj (createRecord [demoCell] 0).1 0 o2)
          (createRecord [demoCell] 0).2
          = readFields [demoCell] 0 :=
  record_create_copy_on_create [demoCell] 0 (by decide)

/-- C9: converting a freshly created sequence back to a mutable one
yields a non-frozen sequence with identical elements in the same order
(the element list is shared, the copy being shallow). -/
theorem toMutable_create_roundtrip (values : List JSValue) :
    Tuple.toArray (Tuple values) = .arr false values
    ∧ isFrozen (Tuple.toArray (Tuple values)) = false
    ∧ isArrayV (Tuple.toArray (Tuple values)) = true
    ∧ elemsOf (Tuple.toArray (Tuple values)) = values :=
  ⟨rfl, rfl, rfl, rfl⟩

/-- C10: `isEqual` is symmetric on (acyclic) well-formed values. -/
theorem isEqual_symmetric (x y : JSValue) (hx : WFJS x) (hy : WFJS y) :
    isEqual x y = isEqual y x :=
  isEqual_symm_aux (jsSize x + jsSize y) x y le_rfl hx hy

/-- Witness for C10 at a sequence and an object. -/
theorem isEqual_symmetric_witness :
    isEqual (Tuple [jnum 1]) (.obj false 0 [("a", jnum 1)])
      = isEqual (.obj false 0 [("a", jnum 1)]) (Tuple [jnum 1]) :=
  isEqual_symmetric (Tuple [jnum 1]) (.obj false 0 [("a", jnum 1)])
    (WFJS.arr true [jnum 1] (fun e he => by
      rcases List.mem_singleton.mp he with rfl
      exact WFJS.prim _))
    (WFJS.obj false 0 [("a", jnum 1)] (by decide) (fun p hp => by
      rcases List.mem_singleton.mp hp with rfl
      exact WFJS.prim _))

end Defiant
